import Mathlib

/-!
Verification of the log-record classifier of `nix-cache` (`src/op.rs`)
and of the dependency collector the specification describes around it.

The classifier `Op::from_internal_log` matches the message text of a
structured Nix log record against four anchored regular expressions and
turns a match into a typed filesystem operation.  The four patterns are

  COPIED_SOURCE : `^copied source '(?P<source>.*)' -> '(?P<target>.*)'$`
  EVALUATED_FILE: `^evaluating file '(?P<source>.*)'$`
  READ_FILE     : `^trace: devenv readFile: '(?P<source>.*)'$`
  TRACKED_PATH  : `^trace: devenv path: '(?P<source>.*)'$`

applied in the order COPIED_SOURCE, EVALUATED_FILE, READ_FILE,
TRACKED_PATH, the first match winning.

Embedding notes.  Messages are embedded as `List Char`.  In the Rust
`regex` crate, `^`/`$` (without the multi-line flag) anchor at the start
and end of the whole text, `.` matches every character except the
newline, and `.*` is greedy with leftmost-first (backtracking-preference)
capture semantics.  Each of the four patterns is the literal prefix up to
the first quote, then capture text, and a final quote as the last
character of the text; for the two-capture pattern the greedy first
group takes the decomposition at the LAST occurrence of the separator
`' -> '`.  The matchers below implement exactly these semantics, and the
filesystem `is_dir` test of the `EvaluatedFile` branch is passed in as a
boolean oracle on paths (a stat error behaves as the oracle answering
`false`, matching `Path::is_dir`, which returns `false` when the stat
fails).
-/

namespace NixCache

/-- The single-quote character (code point 39) that delimits every captured
path in the four message templates. -/
def squote : Char := Char.ofNat 39

/-- The newline character: the only character the regex metacharacter `.`
does not match. -/
def nlChar : Char := Char.ofNat 10

/-- `noNl s` holds when `s` has no newline, i.e. when `s` is matchable by
the regex fragment `.*`. -/
def noNl (s : List Char) : Prop := nlChar ∉ s

instance (s : List Char) : Decidable (noNl s) := by
  unfold noNl; infer_instance

/-- Literal prefix of COPIED_SOURCE up to the first capture: `copied source '`. -/
def copiedPre : List Char :=
  ['c', 'o', 'p', 'i', 'e', 'd', ' ', 's', 'o', 'u', 'r', 'c', 'e', ' ', squote]

/-- Literal prefix of EVALUATED_FILE up to the capture: `evaluating file '`. -/
def evalPre : List Char :=
  ['e', 'v', 'a', 'l', 'u', 'a', 't', 'i', 'n', 'g', ' ', 'f', 'i', 'l', 'e', ' ', squote]

/-- Literal prefix of READ_FILE up to the capture: `trace: devenv readFile: '`. -/
def readPre : List Char :=
  ['t', 'r', 'a', 'c', 'e', ':', ' ', 'd', 'e', 'v', 'e', 'n', 'v', ' ',
   'r', 'e', 'a', 'd', 'F', 'i', 'l', 'e', ':', ' ', squote]

/-- Literal prefix of TRACKED_PATH up to the capture: `trace: devenv path: '`. -/
def trackedPre : List Char :=
  ['t', 'r', 'a', 'c', 'e', ':', ' ', 'd', 'e', 'v', 'e', 'n', 'v', ' ',
   'p', 'a', 't', 'h', ':', ' ', squote]

/-- The literal separator between the two captures of COPIED_SOURCE:
`' -> '` (quote, space, dash, greater-than, space, quote). -/
def sepLit : List Char := [squote, ' ', '-', '>', ' ', squote]

/-- Strip a literal pattern prefix from the message, or fail.  This is how
an anchored regex consumes the literal part before the first capture
group. -/
def stripPre (pre msg : List Char) : Option (List Char) :=
  if pre.isPrefixOf msg then some (msg.drop pre.length) else none

/-- Split `xs` at the LAST occurrence of `pat`: `splitLast pat xs = some (a, b)`
with `xs = a ++ pat ++ b` and no occurrence of `pat` starting after `a`.
This is where the greedy first capture group of
`'(?P<source>.*)' -> '(?P<target>.*)'` ends up under the regex crate's
leftmost-first semantics: the first `.*` grabs as much as possible. -/
def splitLast (pat : List Char) : List Char → Option (List Char × List Char)
  | [] => if pat.isEmpty then some ([], []) else none
  | c :: rest =>
    match splitLast pat rest with
    | some (a, b) => some (c :: a, b)
    | none =>
      if pat.isPrefixOf (c :: rest) then some ([], (c :: rest).drop pat.length)
      else none

/-- Match a one-capture anchored pattern `^<pre>(?P<source>.*)'$` against a
whole message: the message must start with the literal prefix, end with a
quote, and the capture (everything in between) must be newline-free
(regex `.` does not match newline). -/
def matchOne (pre msg : List Char) : Option (List Char) :=
  match stripPre pre msg with
  | none => none
  | some rest =>
    match rest.getLast? with
    | none => none
    | some c =>
      if c = squote then
        if decide (noNl rest.dropLast) then some rest.dropLast else none
      else none

/-- Match the two-capture anchored pattern
`^copied source '(?P<source>.*)' -> '(?P<target>.*)'$` (with `pre` the
literal prefix): the message starts with the prefix and ends with a
quote, the middle part is newline-free, and the greedy first group makes
the split happen at the last occurrence of `' -> '` in the middle. -/
def matchTwo (pre msg : List Char) : Option (List Char × List Char) :=
  match stripPre pre msg with
  | none => none
  | some rest =>
    match rest.getLast? with
    | none => none
    | some c =>
      if c = squote then
        if decide (noNl rest.dropLast) then splitLast sepLit rest.dropLast else none
      else none

/-- The sum type of filesystem operations extracted from the Nix logs
(`enum Op` in `src/op.rs`); `PathBuf` fields are embedded as the captured
character lists. -/
inductive Op where
  /-- Copied a file to the Nix store. -/
  | CopiedSource (source target : List Char)
  /-- Evaluated a Nix file. -/
  | EvaluatedFile (source : List Char)
  /-- Read a file's contents with `builtins.readFile`. -/
  | ReadFile (source : List Char)
  /-- Used a tracked devenv string path. -/
  | TrackedPath (source : List Char)
deriving DecidableEq, Repr

/-- Modelled from the spec: the structured log record type consumed by the
classifier (its defining module, `nix_internal_log.rs`, is not among the
visible sources; the spec says a record "carries at minimum a textual
message, a severity/level, and a record kind tag (plain message vs.
lifecycle event)", and the classifier's tests construct
`NixInternalLog::Msg { msg, raw_msg, level }` and `NixInternalLog::Stop { id }`).
Lifecycle records beyond `Stop` are represented by `Start` and `Result`. -/
inductive NixInternalLog where
  /-- A plain message record: message text, optional raw text, severity level. -/
  | Msg (msg : List Char) (raw_msg : Option (List Char)) (level : Nat)
  /-- Lifecycle record: an activity started. -/
  | Start (id : Nat)
  /-- Lifecycle record: an activity stopped. -/
  | Stop (id : Nat)
  /-- Lifecycle record: an activity result. -/
  | Result (id : Nat)
deriving DecidableEq

/-- The conventional directory entry file name `default.nix`. -/
def defaultEntry : List Char := ['d', 'e', 'f', 'a', 'u', 'l', 't', '.', 'n', 'i', 'x']

/-- `PathBuf::push("default.nix")` on a Unix path: append the file name,
inserting a `/` separator unless the path is empty or already ends in
one (`default.nix` is relative, so it never replaces the path). -/
def pushDefault (p : List Char) : List Char :=
  if p = [] then defaultEntry
  else if p.getLast? = some '/' then p ++ defaultEntry
  else p ++ '/' :: defaultEntry

/-- `Op::from_internal_log` of `src/op.rs`: on a plain message record, try
COPIED_SOURCE, then EVALUATED_FILE (appending `default.nix` when the
captured path is a directory according to the `isDir` oracle), then
READ_FILE, then TRACKED_PATH, first match winning; every other record
kind classifies to `none`. -/
def Op.from_internal_log (isDir : List Char → Bool) (log : NixInternalLog) : Option Op :=
  match log with
  | NixInternalLog.Msg msg _ _ =>
    match matchTwo copiedPre msg with
    | some (s, t) => some (Op.CopiedSource s t)
    | none =>
      match matchOne evalPre msg with
      | some s =>
        some (Op.EvaluatedFile (if isDir s then pushDefault s else s))
      | none =>
        match matchOne readPre msg with
        | some s => some (Op.ReadFile s)
        | none =>
          match matchOne trackedPre msg with
          | some s => some (Op.TrackedPath s)
          | none => none
  | _ => none

/-- Modelled from the spec: the Dependency Collector "consumes the full
ordered stream of log records for one invocation, runs each through the
classifier, and produces the set of filesystem operations observed",
"deduplicated by full operation equality (variant + paths)" (its code is
not among the visible sources).  Embedded as a left fold inserting each
classified operation into a finite set, reflecting streaming consumption. -/
def collect (isDir : List Char → Bool) (logs : List NixInternalLog) : Finset Op :=
  logs.foldl
    (fun acc log =>
      match Op.from_internal_log isDir log with
      | some op => insert op acc
      | none => acc)
    ∅

end NixCache

namespace NixCache

/-! ### Basic facts about the pattern fragments -/

theorem sepLit_ne_nil : sepLit ≠ [] := by decide

theorem noNl_sepLit : noNl sepLit := by decide

theorem noNl_append {a b : List Char} : noNl (a ++ b) ↔ noNl a ∧ noNl b := by
  unfold noNl
  simp [List.mem_append, not_or]

/-! ### `stripPre`: consuming the anchored literal prefix -/

theorem stripPre_eq_some {pre msg rest : List Char} :
    stripPre pre msg = some rest ↔ msg = pre ++ rest := by
  unfold stripPre
  split
  case isTrue h =>
    rw [ List.isPrefixOf_iff_prefix] at h
    obtain ⟨u, hu⟩ := h
    subst hu
    simp [List.drop_left]
  case isFalse h =>
    simp only [reduceCtorEq, false_iff]
    intro he
    exact h (by rw [he, List.isPrefixOf_iff_prefix]; exact List.prefix_append pre rest)

theorem stripPre_eq_none {pre msg : List Char} :
    stripPre pre msg = none ↔ ¬ pre <+: msg := by
  unfold stripPre
  split
  case isTrue h =>
    rw [ List.isPrefixOf_iff_prefix] at h
    simp [h]
  case isFalse h =>
    rw [ List.isPrefixOf_iff_prefix] at h
    simp [h]

/-- Two of the literal prefixes that are mutually non-prefix cannot both
anchor at the start of the same message. -/
theorem stripPre_none_of_other {p q msg : List Char} (hp : p <+: msg)
    (h1 : q.isPrefixOf p = false) (h2 : p.isPrefixOf q = false) :
    stripPre q msg = none := by
  rw [stripPre_eq_none]
  intro hq
  rcases List.prefix_or_prefix_of_prefix hq hp with h | h
  · rw [← List.isPrefixOf_iff_prefix] at h
    rw [h1] at h
    exact Bool.false_ne_true h
  · rw [← List.isPrefixOf_iff_prefix] at h
    rw [h2] at h
    exact Bool.false_ne_true h

/-! ### `matchOne`: the one-capture anchored patterns -/

theorem matchOne_eq_some {pre msg s : List Char} :
    matchOne pre msg = some s ↔ msg = pre ++ s ++ [squote] ∧ noNl s := by
  constructor
  · intro h
    unfold matchOne at h
    split at h
    · exact absurd h (by simp)
    case h_2 rest hst =>
      split at h
      · exact absurd h (by simp)
      case h_2 c hlast =>
        split at h
        case isTrue hc =>
          split at h
          case isTrue hn =>
            rw [stripPre_eq_some] at hst
            have hs : rest.dropLast = s := by simpa using h
            have hrest : rest.dropLast ++ [c] = rest :=
              List.dropLast_append_getLast? c hlast
            have hn' : noNl rest.dropLast := of_decide_eq_true hn
            subst hs hc
            refine ⟨?_, hn'⟩
            rw [hst, List.append_assoc, hrest]
          case isFalse => exact absurd h (by simp)
        case isFalse => exact absurd h (by simp)
  · rintro ⟨hmsg, hn⟩
    have hst : stripPre pre msg = some (s ++ [squote]) := by
      rw [stripPre_eq_some, hmsg, List.append_assoc]
    unfold matchOne
    rw [hst]
    simp [List.getLast?_concat, List.dropLast_concat, hn]

theorem matchOne_eq_none_of_stripPre {pre msg : List Char}
    (h : stripPre pre msg = none) : matchOne pre msg = none := by
  unfold matchOne
  rw [h]

/-! ### `splitLast`: the greedy two-capture split -/

theorem splitLast_sound {pat : List Char} :
    ∀ {xs a b : List Char}, splitLast pat xs = some (a, b) → xs = a ++ pat ++ b := by
  intro xs
  induction xs with
  | nil =>
    intro a b h
    unfold splitLast at h
    split at h
    case isTrue hp =>
      have hpat : pat = [] := by simpa using hp
      obtain ⟨rfl, rfl⟩ : [] = a ∧ [] = b := by simpa using h
      simp [hpat]
    case isFalse => exact absurd h (by simp)
  | cons c rest ih =>
    intro a b h
    unfold splitLast at h
    split at h
    case h_1 a' b' heq =>
      obtain ⟨rfl, rfl⟩ : c :: a' = a ∧ b' = b := by simpa using h
      simp [ih heq]
    case h_2 heq =>
      split at h
      case isTrue hp =>
        obtain ⟨rfl, rfl⟩ : [] = a ∧ (c :: rest).drop pat.length = b := by simpa using h
        have hpre : pat <+: c :: rest := List.isPrefixOf_iff_prefix.mp hp
        obtain ⟨w, hw⟩ := hpre
        rw [← hw, List.drop_left]
        simp [hw]
      case isFalse => exact absurd h (by simp)

theorem splitLast_none {pat : List Char} (hpat : pat ≠ []) :
    ∀ xs, splitLast pat xs = none → ∀ a b, xs ≠ a ++ pat ++ b := by
  intro xs
  induction xs with
  | nil =>
    intro _ a b habs
    rw [List.nil_eq, List.append_eq_nil, List.append_eq_nil] at habs
    exact hpat habs.1.2
  | cons c rest ih =>
    intro h a b habs
    unfold splitLast at h
    split at h
    case h_1 => exact absurd h (by simp)
    case h_2 heq =>
      split at h
      case isTrue => exact absurd h (by simp)
      case isFalse hp =>
        cases a with
        | nil =>
          refine hp ?_
          rw [ List.isPrefixOf_iff_prefix]
          exact ⟨b, by simpa using habs.symm⟩
        | cons a0 a' =>
          have hc : c :: rest = a0 :: (a' ++ pat ++ b) := by simpa using habs
          exact ih heq a' b (List.cons.inj hc).2

theorem splitLast_last {pat : List Char} (hpat : pat ≠ []) :
    ∀ xs a b, splitLast pat xs = some (a, b) → ¬ pat <:+: (pat.drop 1 ++ b) := by
  intro xs
  induction xs with
  | nil =>
    intro a b h
    unfold splitLast at h
    split at h
    case isTrue hp => exact absurd (by simpa using hp) hpat
    case isFalse => exact absurd h (by simp)
  | cons c rest ih =>
    intro a b h
    unfold splitLast at h
    split at h
    case h_1 a' b' heq =>
      obtain ⟨rfl, rfl⟩ : c :: a' = a ∧ b' = b := by simpa using h
      exact ih a' _ heq
    case h_2 heq =>
      split at h
      case isTrue hp =>
        obtain ⟨rfl, rfl⟩ : [] = a ∧ (c :: rest).drop pat.length = b := by simpa using h
        intro hinf
        obtain ⟨u, v, huv⟩ := hinf
        have hpre : pat <+: c :: rest := List.isPrefixOf_iff_prefix.mp hp
        obtain ⟨w, hw⟩ := hpre
        have hb : (c :: rest).drop pat.length = w := by rw [← hw, List.drop_left]
        rw [hb] at huv
        have hrest : rest = pat.drop 1 ++ w := by
          cases pat with
          | nil => exact absurd rfl hpat
          | cons p0 pat' =>
            have hcons : p0 :: (pat' ++ w) = c :: rest := by simpa using hw
            simpa using (List.cons.inj hcons).2.symm
        exact splitLast_none hpat rest heq u v (by rw [hrest, ← huv])
      case isFalse => exact absurd h (by simp)

theorem splitLast_complete {pat : List Char} (hpat : pat ≠ []) :
    ∀ a b, ¬ pat <:+: (pat.drop 1 ++ b) → splitLast pat (a ++ pat ++ b) = some (a, b) := by
  intro a
  induction a with
  | nil =>
    intro b hb
    have hnone : splitLast pat (pat.drop 1 ++ b) = none := by
      cases hsp : splitLast pat (pat.drop 1 ++ b) with
      | none => rfl
      | some ab =>
        obtain ⟨u, v⟩ := ab
        exact absurd ⟨u, v, (splitLast_sound hsp).symm⟩ hb
    cases pat with
    | nil => exact absurd rfl hpat
    | cons p0 pat' =>
      show splitLast (p0 :: pat') (p0 :: (pat' ++ b)) = some ([], b)
      unfold splitLast
      have hnone' : splitLast (p0 :: pat') (pat' ++ b) = none := by simpa using hnone
      rw [hnone']
      have hpre : (p0 :: pat').isPrefixOf (p0 :: (pat' ++ b)) = true := by
        rw [ List.isPrefixOf_iff_prefix]
        exact ⟨b, by simp⟩
      rw [if_pos hpre]
      have : (p0 :: (pat' ++ b)).drop (p0 :: pat').length = b := by
        have : p0 :: (pat' ++ b) = (p0 :: pat') ++ b := by simp
        rw [this, List.drop_left]
      rw [this]
  | cons a0 a' ih =>
    intro b hb
    show splitLast pat (a0 :: (a' ++ pat ++ b)) = some (a0 :: a', b)
    unfold splitLast
    rw [ih b hb]

/-! ### `matchTwo`: the two-capture anchored pattern -/

theorem matchTwo_eq_some {pre msg s t : List Char} :
    matchTwo pre msg = some (s, t) ↔
      msg = pre ++ s ++ sepLit ++ t ++ [squote] ∧ noNl s ∧ noNl t ∧
        ¬ sepLit <:+: (sepLit.drop 1 ++ t) := by
  constructor
  · intro h
    unfold matchTwo at h
    split at h
    · exact absurd h (by simp)
    case h_2 rest hst =>
      split at h
      · exact absurd h (by simp)
      case h_2 c hlast =>
        split at h
        case isTrue hc =>
          split at h
          case isTrue hn =>
            rw [stripPre_eq_some] at hst
            have hn' : noNl rest.dropLast := of_decide_eq_true hn
            have hmid : rest.dropLast = s ++ sepLit ++ t := splitLast_sound h
            have hlastocc : ¬ sepLit <:+: (sepLit.drop 1 ++ t) :=
              splitLast_last sepLit_ne_nil _ s t h
            have hrest : rest.dropLast ++ [c] = rest :=
              List.dropLast_append_getLast? c hlast
            rw [hmid] at hn'
            rw [noNl_append, noNl_append] at hn'
            refine ⟨?_, hn'.1.1, hn'.2, hlastocc⟩
            subst hc
            rw [hst, ← hrest, hmid]
            simp [List.append_assoc]
          case isFalse => exact absurd h (by simp)
        case isFalse => exact absurd h (by simp)
  · rintro ⟨hmsg, hns, hnt, hocc⟩
    have hst : stripPre pre msg = some (s ++ sepLit ++ t ++ [squote]) := by
      rw [stripPre_eq_some, hmsg]
      simp [List.append_assoc]
    unfold matchTwo
    rw [hst]
    have hlast : (s ++ sepLit ++ t ++ [squote]).getLast? = some squote := by
      rw [List.getLast?_concat]
    have hdl : (s ++ sepLit ++ t ++ [squote]).dropLast = s ++ sepLit ++ t := by
      rw [List.dropLast_concat]
    simp only [hlast, hdl]
    have hnn : noNl (s ++ sepLit ++ t) := by
      rw [noNl_append, noNl_append]
      exact ⟨⟨hns, noNl_sepLit⟩, hnt⟩
    rw [if_pos trivial, if_pos (by simpa using hnn)]
    exact splitLast_complete sepLit_ne_nil s t hocc

theorem matchTwo_eq_none_of_stripPre {pre msg : List Char}
    (h : stripPre pre msg = none) : matchTwo pre msg = none := by
  unfold matchTwo
  rw [h]

/-! ### The four literal prefixes are pairwise incomparable -/

theorem preIncomp :
    (copiedPre.isPrefixOf evalPre = false) ∧ (evalPre.isPrefixOf copiedPre = false) ∧
    (copiedPre.isPrefixOf readPre = false) ∧ (readPre.isPrefixOf copiedPre = false) ∧
    (copiedPre.isPrefixOf trackedPre = false) ∧ (trackedPre.isPrefixOf copiedPre = false) ∧
    (evalPre.isPrefixOf readPre = false) ∧ (readPre.isPrefixOf evalPre = false) ∧
    (evalPre.isPrefixOf trackedPre = false) ∧ (trackedPre.isPrefixOf evalPre = false) ∧
    (readPre.isPrefixOf trackedPre = false) ∧ (trackedPre.isPrefixOf readPre = false) := by
  decide

theorem matchOne_anchors {pre msg s : List Char} (h : matchOne pre msg = some s) :
    pre <+: msg := by
  obtain ⟨h1, -⟩ := matchOne_eq_some.mp h
  exact ⟨s ++ [squote], by rw [h1]; simp [List.append_assoc]⟩

theorem matchTwo_anchors {pre msg s t : List Char} (h : matchTwo pre msg = some (s, t)) :
    pre <+: msg := by
  obtain ⟨h1, -⟩ := matchTwo_eq_some.mp h
  exact ⟨s ++ sepLit ++ t ++ [squote], by rw [h1]; simp [List.append_assoc]⟩

theorem matchOne_none_of_pre {p q msg : List Char} (hp : p <+: msg)
    (h1 : q.isPrefixOf p = false) (h2 : p.isPrefixOf q = false) :
    matchOne q msg = none :=
  matchOne_eq_none_of_stripPre (stripPre_none_of_other hp h1 h2)

theorem matchTwo_none_of_pre {p q msg : List Char} (hp : p <+: msg)
    (h1 : q.isPrefixOf p = false) (h2 : p.isPrefixOf q = false) :
    matchTwo q msg = none :=
  matchTwo_eq_none_of_stripPre (stripPre_none_of_other hp h1 h2)

/-! ### Evaluation of the classifier, branch by branch -/

theorem from_log_start (isDir : List Char → Bool) (id : Nat) :
    Op.from_internal_log isDir (NixInternalLog.Start id) = none := rfl

theorem from_log_stop (isDir : List Char → Bool) (id : Nat) :
    Op.from_internal_log isDir (NixInternalLog.Stop id) = none := rfl

theorem from_log_result (isDir : List Char → Bool) (id : Nat) :
    Op.from_internal_log isDir (NixInternalLog.Result id) = none := rfl

theorem from_log_copied {isDir : List Char → Bool} {msg s t : List Char}
    {raw : Option (List Char)} {lvl : Nat} (h : matchTwo copiedPre msg = some (s, t)) :
    Op.from_internal_log isDir (NixInternalLog.Msg msg raw lvl) =
      some (Op.CopiedSource s t) := by
  simp [Op.from_internal_log, h]

theorem from_log_eval {isDir : List Char → Bool} {msg s : List Char}
    {raw : Option (List Char)} {lvl : Nat} (h0 : matchTwo copiedPre msg = none)
    (h : matchOne evalPre msg = some s) :
    Op.from_internal_log isDir (NixInternalLog.Msg msg raw lvl) =
      some (Op.EvaluatedFile (if isDir s then pushDefault s else s)) := by
  simp [Op.from_internal_log, h0, h]

theorem from_log_read {isDir : List Char → Bool} {msg s : List Char}
    {raw : Option (List Char)} {lvl : Nat} (h0 : matchTwo copiedPre msg = none)
    (h1 : matchOne evalPre msg = none) (h : matchOne readPre msg = some s) :
    Op.from_internal_log isDir (NixInternalLog.Msg msg raw lvl) =
      some (Op.ReadFile s) := by
  simp [Op.from_internal_log, h0, h1, h]

theorem from_log_tracked {isDir : List Char → Bool} {msg s : List Char}
    {raw : Option (List Char)} {lvl : Nat} (h0 : matchTwo copiedPre msg = none)
    (h1 : matchOne evalPre msg = none) (h2 : matchOne readPre msg = none)
    (h : matchOne trackedPre msg = some s) :
    Op.from_internal_log isDir (NixInternalLog.Msg msg raw lvl) =
      some (Op.TrackedPath s) := by
  simp [Op.from_internal_log, h0, h1, h2, h]

theorem from_log_noMatch {isDir : List Char → Bool} {msg : List Char}
    {raw : Option (List Char)} {lvl : Nat} (h0 : matchTwo copiedPre msg = none)
    (h1 : matchOne evalPre msg = none) (h2 : matchOne readPre msg = none)
    (h3 : matchOne trackedPre msg = none) :
    Op.from_internal_log isDir (NixInternalLog.Msg msg raw lvl) = none := by
  simp [Op.from_internal_log, h0, h1, h2, h3]

/-! ### The ordered pattern table and its mutual exclusivity -/

/-- The classifier's fixed, ordered pattern table — COPIED_SOURCE,
EVALUATED_FILE, READ_FILE, TRACKED_PATH — each entry mapping a message to
the operation its match produces (`Op.from_internal_log` applies exactly
these, in exactly this order). -/
def matcherList (isDir : List Char → Bool) : List (List Char → Option Op) :=
  [ fun msg => (matchTwo copiedPre msg).map (fun p => Op.CopiedSource p.1 p.2)
  , fun msg => (matchOne evalPre msg).map
      (fun s => Op.EvaluatedFile (if isDir s then pushDefault s else s))
  , fun msg => (matchOne readPre msg).map Op.ReadFile
  , fun msg => (matchOne trackedPre msg).map Op.TrackedPath ]

/-- Two matchers are mutually exclusive when no message is accepted by
both. -/
def MutExcl (f g : List Char → Option Op) : Prop :=
  ∀ msg, f msg = none ∨ g msg = none

theorem MutExcl.symm {f g : List Char → Option Op} (h : MutExcl f g) : MutExcl g f :=
  fun msg => (h msg).symm

/-- The classifier is the first hit of the ordered pattern table. -/
theorem from_log_eq_findSome (isDir : List Char → Bool) (msg : List Char)
    (raw : Option (List Char)) (lvl : Nat) :
    Op.from_internal_log isDir (NixInternalLog.Msg msg raw lvl) =
      (matcherList isDir).findSome? (fun m => m msg) := by
  cases h0 : matchTwo copiedPre msg with
  | some p =>
    obtain ⟨s, t⟩ := p
    rw [from_log_copied h0]
    simp [matcherList, List.findSome?_cons, h0]
  | none =>
    cases h1 : matchOne evalPre msg with
    | some s =>
      rw [from_log_eval h0 h1]
      simp [matcherList, List.findSome?_cons, h0, h1]
    | none =>
      cases h2 : matchOne readPre msg with
      | some s =>
        rw [from_log_read h0 h1 h2]
        simp [matcherList, List.findSome?_cons, h0, h1, h2]
      | none =>
        cases h3 : matchOne trackedPre msg with
        | some s =>
          rw [from_log_tracked h0 h1 h2 h3]
          simp [matcherList, List.findSome?_cons, h0, h1, h2, h3]
        | none =>
          rw [from_log_noMatch h0 h1 h2 h3]
          simp [matcherList, List.findSome?_cons, h0, h1, h2, h3]

/-- The four matchers are pairwise mutually exclusive: the literal
prefixes are pairwise incomparable, so no message text is accepted by
two distinct patterns. -/
theorem matcherList_pairwise (isDir : List Char → Bool) :
    (matcherList isDir).Pairwise MutExcl := by
  obtain ⟨i1, i2, i3, i4, i5, i6, i7, i8, i9, i10, i11, i12⟩ := preIncomp
  refine List.Pairwise.cons ?_ (List.Pairwise.cons ?_ (List.Pairwise.cons ?_ ?_))
  · intro g hg msg
    cases h : matchTwo copiedPre msg with
    | none => exact Or.inl (by simp [h])
    | some pr =>
      obtain ⟨s, t⟩ := pr
      have hp := matchTwo_anchors h
      simp only [matcherList, List.mem_cons, List.not_mem_nil, or_false] at hg
      rcases hg with rfl | rfl | rfl
      · exact Or.inr (by simp [matchOne_none_of_pre hp i2 i1])
      · exact Or.inr (by simp [matchOne_none_of_pre hp i4 i3])
      · exact Or.inr (by simp [matchOne_none_of_pre hp i6 i5])
  · intro g hg msg
    cases h : matchOne evalPre msg with
    | none => exact Or.inl (by simp [h])
    | some s =>
      have hp := matchOne_anchors h
      simp only [matcherList, List.mem_cons, List.not_mem_nil, or_false] at hg
      rcases hg with rfl | rfl
      · exact Or.inr (by simp [matchOne_none_of_pre hp i8 i7])
      · exact Or.inr (by simp [matchOne_none_of_pre hp i10 i9])
  · intro g hg msg
    cases h : matchOne readPre msg with
    | none => exact Or.inl (by simp [h])
    | some s =>
      have hp := matchOne_anchors h
      simp only [matcherList, List.mem_cons, List.not_mem_nil, or_false] at hg
      rcases hg with rfl
      exact Or.inr (by simp [matchOne_none_of_pre hp i12 i11])
  · exact List.pairwise_singleton MutExcl _

/-- First-hit search over a pairwise mutually exclusive matcher list is
invariant under permutation of the list. -/
theorem findSome?_eq_of_perm {l l' : List (List Char → Option Op)} (hp : l.Perm l')
    (hx : l.Pairwise MutExcl) (msg : List Char) :
    l.findSome? (fun m => m msg) = l'.findSome? (fun m => m msg) := by
  induction hp with
  | nil => rfl
  | cons a hperm ih =>
    rename_i t t'
    rw [List.findSome?_cons, List.findSome?_cons]
    cases h : a msg with
    | some v => rfl
    | none => exact ih (List.pairwise_cons.mp hx).2
  | swap a b t =>
    have hab : MutExcl b a := by
      have := (List.pairwise_cons.mp hx).1
      exact this a (List.mem_cons_self a t)
    rw [List.findSome?_cons, List.findSome?_cons, List.findSome?_cons,
      List.findSome?_cons]
    cases h1 : b msg with
    | some v =>
      cases h2 : a msg with
      | some w => rcases hab msg with h | h <;> simp_all
      | none => simp
    | none =>
      cases h2 : a msg with
      | some w => simp
      | none => simp
  | trans h1 h2 ih1 ih2 =>
    rw [ih1 hx, ih2 ((List.Perm.pairwise_iff (fun h => MutExcl.symm h) h1).mp hx)]

/-! ### The dependency collector -/

theorem mem_collect_aux (isDir : List Char → Bool) :
    ∀ (logs : List NixInternalLog) (acc : Finset Op) (op : Op),
      op ∈ logs.foldl
        (fun acc log =>
          match Op.from_internal_log isDir log with
          | some o => insert o acc
          | none => acc) acc ↔
        op ∈ acc ∨ ∃ log ∈ logs, Op.from_internal_log isDir log = some op := by
  intro logs
  induction logs with
  | nil => intro acc op; simp
  | cons l ls ih =>
    intro acc op
    rw [List.foldl_cons, ih]
    cases h : Op.from_internal_log isDir l with
    | some o =>
      simp only [h, Finset.mem_insert]
      constructor
      · rintro ((rfl | hacc) | ⟨log, hl, hlog⟩)
        · exact Or.inr ⟨l, List.mem_cons_self l ls, h⟩
        · exact Or.inl hacc
        · exact Or.inr ⟨log, List.mem_cons_of_mem l hl, hlog⟩
      · rintro (hacc | ⟨log, hl, hlog⟩)
        · exact Or.inl (Or.inr hacc)
        · rcases List.mem_cons.mp hl with rfl | hl2
          · rw [h] at hlog
            exact Or.inl (Or.inl (Option.some.inj hlog).symm)
          · exact Or.inr ⟨log, hl2, hlog⟩
    | none =>
      simp only [h]
      constructor
      · rintro (hacc | ⟨log, hl, hlog⟩)
        · exact Or.inl hacc
        · exact Or.inr ⟨log, List.mem_cons_of_mem l hl, hlog⟩
      · rintro (hacc | ⟨log, hl, hlog⟩)
        · exact Or.inl hacc
        · rcases List.mem_cons.mp hl with rfl | hl2
          · rw [h] at hlog
            exact absurd hlog (by simp)
          · exact Or.inr ⟨log, hl2, hlog⟩

/-- Membership in the collected dependency set: exactly the operations the
classifier extracts from some record of the stream (deduplicated by
operation equality). -/
theorem mem_collect (isDir : List Char → Bool) (logs : List NixInternalLog) (op : Op) :
    op ∈ collect isDir logs ↔
      ∃ log ∈ logs, Op.from_internal_log isDir log = some op := by
  unfold collect
  rw [mem_collect_aux]
  simp

/-- Inversion: a successful classification of a plain message must come
from exactly one of the four branches, with the matcher's captures as the
operation's fields. -/
theorem from_log_msg_cases {isDir : List Char → Bool} {msg : List Char}
    {raw : Option (List Char)} {lvl : Nat} {op : Op}
    (h : Op.from_internal_log isDir (NixInternalLog.Msg msg raw lvl) = some op) :
    (∃ s t, matchTwo copiedPre msg = some (s, t) ∧ op = Op.CopiedSource s t) ∨
    (∃ s, matchOne evalPre msg = some s ∧
       op = Op.EvaluatedFile (if isDir s then pushDefault s else s)) ∨
    (∃ s, matchOne readPre msg = some s ∧ op = Op.ReadFile s) ∨
    (∃ s, matchOne trackedPre msg = some s ∧ op = Op.TrackedPath s) := by
  cases h0 : matchTwo copiedPre msg with
  | some p =>
    obtain ⟨s, t⟩ := p
    rw [from_log_copied h0] at h
    exact Or.inl ⟨s, t, rfl, (Option.some.inj h).symm⟩
  | none =>
    cases h1 : matchOne evalPre msg with
    | some s =>
      rw [from_log_eval h0 h1] at h
      exact Or.inr (Or.inl ⟨s, rfl, (Option.some.inj h).symm⟩)
    | none =>
      cases h2 : matchOne readPre msg with
      | some s =>
        rw [from_log_read h0 h1 h2] at h
        exact Or.inr (Or.inr (Or.inl ⟨s, rfl, (Option.some.inj h).symm⟩))
      | none =>
        cases h3 : matchOne trackedPre msg with
        | some s =>
          rw [from_log_tracked h0 h1 h2 h3] at h
          exact Or.inr (Or.inr (Or.inr ⟨s, rfl, (Option.some.inj h).symm⟩))
        | none =>
          rw [from_log_noMatch h0 h1 h2 h3] at h
          exact absurd h (by simp)

/-! ### Claims -/

/-- C1 (counterexample): the round-trip property fails as universally
stated.  A captured path containing a newline makes its template message
unclassifiable (regex `.` does not match newline), and a CopiedSource
target beginning with ` -> '` makes the greedy first capture group steal
part of the separator, so the captures differ from the substituted
paths. -/
theorem c1_roundtrip_cex :
    (Op.from_internal_log (fun _ => false)
        (NixInternalLog.Msg (evalPre ++ ['a', nlChar, 'b'] ++ [squote]) none 1) = none) ∧
    (Op.from_internal_log (fun _ => false)
        (NixInternalLog.Msg
          (copiedPre ++ ['a'] ++ sepLit ++ [' ', '-', '>', ' ', squote, 'c'] ++ [squote])
          none 1) =
      some (Op.CopiedSource ['a', squote, ' ', '-', '>', ' '] ['c'])) ∧
    (Op.CopiedSource ['a', squote, ' ', '-', '>', ' '] ['c'] ≠
      Op.CopiedSource ['a'] [' ', '-', '>', ' ', squote, 'c']) :=
  ⟨by decide, by decide, by decide⟩

/-- C1 (amended): round-trip classifier correctness for each of the four
variants, for substituted paths that contain no newline and, for the
CopiedSource target, do not re-create the separator pattern after the
intended one; the EvaluatedFile path is additionally normalized by the
directory rule. -/
theorem c1_roundtrip (isDir : List Char → Bool) (s t : List Char)
    (raw : Option (List Char)) (lvl : Nat) (hs : noNl s) (ht : noNl t) :
    (¬ sepLit <:+: (sepLit.drop 1 ++ t) →
      Op.from_internal_log isDir
          (NixInternalLog.Msg (copiedPre ++ s ++ sepLit ++ t ++ [squote]) raw lvl) =
        some (Op.CopiedSource s t)) ∧
    (Op.from_internal_log isDir
        (NixInternalLog.Msg (evalPre ++ s ++ [squote]) raw lvl) =
      some (Op.EvaluatedFile (if isDir s then pushDefault s else s))) ∧
    (Op.from_internal_log isDir
        (NixInternalLog.Msg (readPre ++ s ++ [squote]) raw lvl) =
      some (Op.ReadFile s)) ∧
    (Op.from_internal_log isDir
        (NixInternalLog.Msg (trackedPre ++ s ++ [squote]) raw lvl) =
      some (Op.TrackedPath s)) := by
  obtain ⟨i1, i2, i3, i4, i5, i6, i7, i8, i9, i10, i11, i12⟩ := preIncomp
  have hpe : evalPre <+: evalPre ++ s ++ [squote] :=
    ⟨s ++ [squote], (List.append_assoc _ s [squote]).symm⟩
  have hpr : readPre <+: readPre ++ s ++ [squote] :=
    ⟨s ++ [squote], (List.append_assoc _ s [squote]).symm⟩
  have hpt : trackedPre <+: trackedPre ++ s ++ [squote] :=
    ⟨s ++ [squote], (List.append_assoc _ s [squote]).symm⟩
  refine ⟨?_, ?_, ?_, ?_⟩
  · intro hocc
    exact from_log_copied (matchTwo_eq_some.mpr ⟨rfl, hs, ht, hocc⟩)
  · exact from_log_eval (matchTwo_none_of_pre hpe i1 i2)
      (matchOne_eq_some.mpr ⟨rfl, hs⟩)
  · exact from_log_read (matchTwo_none_of_pre hpr i3 i4)
      (matchOne_none_of_pre hpr i7 i8) (matchOne_eq_some.mpr ⟨rfl, hs⟩)
  · exact from_log_tracked (matchTwo_none_of_pre hpt i5 i6)
      (matchOne_none_of_pre hpt i9 i10) (matchOne_none_of_pre hpt i11 i12)
      (matchOne_eq_some.mpr ⟨rfl, hs⟩)

/-- C1 witness: the amended round-trip theorem applied to the concrete
paths `a` and `b`. -/
theorem c1_roundtrip_witness :
    (Op.from_internal_log (fun _ => false)
        (NixInternalLog.Msg (copiedPre ++ ['a'] ++ sepLit ++ ['b'] ++ [squote]) none 1) =
      some (Op.CopiedSource ['a'] ['b'])) ∧
    (Op.from_internal_log (fun _ => false)
        (NixInternalLog.Msg (evalPre ++ ['a'] ++ [squote]) none 1) =
      some (Op.EvaluatedFile ['a'])) ∧
    (Op.from_internal_log (fun _ => false)
        (NixInternalLog.Msg (readPre ++ ['a'] ++ [squote]) none 1) =
      some (Op.ReadFile ['a'])) ∧
    (Op.from_internal_log (fun _ => false)
        (NixInternalLog.Msg (trackedPre ++ ['a'] ++ [squote]) none 1) =
      some (Op.TrackedPath ['a'])) := by
  have h := c1_roundtrip (fun _ => false) ['a'] ['b'] none 1 (by decide) (by decide)
  refine ⟨h.1 (by decide), ?_, h.2.2.1, h.2.2.2⟩
  simpa using h.2.1

/-- C2: the classifier returns nothing on every record that is not a
plain message, and on a plain message it returns nothing exactly when
the message text matches none of the four recognized patterns (so in
those cases no variant — in particular no wrong variant — is
produced). -/
theorem c2_unmatched_none : ∀ (isDir : List Char → Bool),
    (∀ id, Op.from_internal_log isDir (NixInternalLog.Start id) = none ∧
       Op.from_internal_log isDir (NixInternalLog.Stop id) = none ∧
       Op.from_internal_log isDir (NixInternalLog.Result id) = none) ∧
    (∀ msg raw lvl,
       Op.from_internal_log isDir (NixInternalLog.Msg msg raw lvl) = none ↔
         (matchTwo copiedPre msg = none ∧ matchOne evalPre msg = none ∧
          matchOne readPre msg = none ∧ matchOne trackedPre msg = none)) := by
  intro isDir
  refine ⟨fun id => ⟨rfl, rfl, rfl⟩, fun msg raw lvl => ?_⟩
  cases h0 : matchTwo copiedPre msg with
  | some p =>
    obtain ⟨s, t⟩ := p
    rw [from_log_copied h0]
    simp [h0]
  | none =>
    cases h1 : matchOne evalPre msg with
    | some s =>
      rw [from_log_eval h0 h1]
      simp [h1]
    | none =>
      cases h2 : matchOne readPre msg with
      | some s =>
        rw [from_log_read h0 h1 h2]
        simp [h2]
      | none =>
        cases h3 : matchOne trackedPre msg with
        | some s =>
          rw [from_log_tracked h0 h1 h2 h3]
          simp [h3]
        | none =>
          rw [from_log_noMatch h0 h1 h2 h3]
          simp [h0, h1, h2, h3]

/-- C3: the classifier is total — every record yields `none` or `some` —
and on every successful match the capture groups are present: the whole
message decomposes into the pattern's literal parts with the operation's
path fields as the captured substrings, so the capture lookups of a
successful match cannot fail. -/
theorem c3_total_no_panic : ∀ (isDir : List Char → Bool) (log : NixInternalLog),
    (Op.from_internal_log isDir log = none ∨
      ∃ op, Op.from_internal_log isDir log = some op) ∧
    (∀ msg raw lvl s t,
       Op.from_internal_log isDir (NixInternalLog.Msg msg raw lvl) =
           some (Op.CopiedSource s t) →
         msg = copiedPre ++ s ++ sepLit ++ t ++ [squote]) ∧
    (∀ msg raw lvl s,
       Op.from_internal_log isDir (NixInternalLog.Msg msg raw lvl) =
           some (Op.EvaluatedFile s) →
         ∃ s0, matchOne evalPre msg = some s0 ∧ msg = evalPre ++ s0 ++ [squote] ∧
           s = (if isDir s0 then pushDefault s0 else s0)) ∧
    (∀ msg raw lvl s,
       Op.from_internal_log isDir (NixInternalLog.Msg msg raw lvl) =
           some (Op.ReadFile s) →
         msg = readPre ++ s ++ [squote]) ∧
    (∀ msg raw lvl s,
       Op.from_internal_log isDir (NixInternalLog.Msg msg raw lvl) =
           some (Op.TrackedPath s) →
         msg = trackedPre ++ s ++ [squote]) := by
  intro isDir log
  refine ⟨?_, ?_, ?_, ?_, ?_⟩
  · cases h : Op.from_internal_log isDir log with
    | none => exact Or.inl rfl
    | some op => exact Or.inr ⟨op, rfl⟩
  · intro msg raw lvl s t h
    rcases from_log_msg_cases h with ⟨s', t', hm, heq⟩ | ⟨s', hm, heq⟩ |
      ⟨s', hm, heq⟩ | ⟨s', hm, heq⟩
    · obtain ⟨rfl, rfl⟩ : s = s' ∧ t = t' := by simpa using heq
      exact (matchTwo_eq_some.mp hm).1
    · simp at heq
    · simp at heq
    · simp at heq
  · intro msg raw lvl s h
    rcases from_log_msg_cases h with ⟨s', t', hm, heq⟩ | ⟨s', hm, heq⟩ |
      ⟨s', hm, heq⟩ | ⟨s', hm, heq⟩
    · simp at heq
    · exact ⟨s', hm, (matchOne_eq_some.mp hm).1, by simpa using heq⟩
    · simp at heq
    · simp at heq
  · intro msg raw lvl s h
    rcases from_log_msg_cases h with ⟨s', t', hm, heq⟩ | ⟨s', hm, heq⟩ |
      ⟨s', hm, heq⟩ | ⟨s', hm, heq⟩
    · simp at heq
    · simp at heq
    · obtain rfl : s = s' := by simpa using heq
      exact (matchOne_eq_some.mp hm).1
    · simp at heq
  · intro msg raw lvl s h
    rcases from_log_msg_cases h with ⟨s', t', hm, heq⟩ | ⟨s', hm, heq⟩ |
      ⟨s', hm, heq⟩ | ⟨s', hm, heq⟩
    · simp at heq
    · simp at heq
    · simp at heq
    · obtain rfl : s = s' := by simpa using heq
      exact (matchOne_eq_some.mp hm).1

/-- C9: classification of a plain message record depends only on its
message text — the `raw_msg` and `level` fields are ignored. -/
theorem c9_severity_noninterference :
    ∀ (isDir : List Char → Bool) (msg : List Char)
      (raw1 raw2 : Option (List Char)) (lvl1 lvl2 : Nat),
      Op.from_internal_log isDir (NixInternalLog.Msg msg raw1 lvl1) =
        Op.from_internal_log isDir (NixInternalLog.Msg msg raw2 lvl2) := by
  intro _ _ _ _ _ _
  rfl

/-- C10: only the EvaluatedFile branch consults the filesystem: for
CopiedSource, ReadFile and TrackedPath matches, the classifier's output
is the captured substrings themselves, identical under every directory
oracle — in particular the CopiedSource target is never normalized or
directory-checked. -/
theorem c10_only_eval_consults_fs :
    ∀ (msg : List Char) (raw : Option (List Char)) (lvl : Nat),
      (∀ s t, matchTwo copiedPre msg = some (s, t) →
         ∀ isDir, Op.from_internal_log isDir (NixInternalLog.Msg msg raw lvl) =
           some (Op.CopiedSource s t)) ∧
      (∀ s, matchOne readPre msg = some s →
         ∀ isDir, Op.from_internal_log isDir (NixInternalLog.Msg msg raw lvl) =
           some (Op.ReadFile s)) ∧
      (∀ s, matchOne trackedPre msg = some s →
         ∀ isDir, Op.from_internal_log isDir (NixInternalLog.Msg msg raw lvl) =
           some (Op.TrackedPath s)) := by
  intro msg raw lvl
  obtain ⟨i1, i2, i3, i4, i5, i6, i7, i8, i9, i10, i11, i12⟩ := preIncomp
  refine ⟨?_, ?_, ?_⟩
  · intro s t hm isDir
    exact from_log_copied hm
  · intro s hm isDir
    have hp : readPre <+: msg := matchOne_anchors hm
    exact from_log_read (matchTwo_none_of_pre hp i3 i4)
      (matchOne_none_of_pre hp i7 i8) hm
  · intro s hm isDir
    have hp : trackedPre <+: msg := matchOne_anchors hm
    exact from_log_tracked (matchTwo_none_of_pre hp i5 i6)
      (matchOne_none_of_pre hp i9 i10) (matchOne_none_of_pre hp i11 i12) hm

/-- C4: EvaluatedFile path normalization — when the captured path is a
directory according to the oracle, `default.nix` is appended (the path is
a prefix of the result and `default.nix` its suffix); when it is not a
directory (which is also what a failed stat reports), the path is
returned unmodified, and the operation is produced in both cases. -/
theorem c4_eval_dir_normalization (isDir : List Char → Bool) (s : List Char)
    (raw : Option (List Char)) (lvl : Nat) (hs : noNl s) :
    (isDir s = true →
       Op.from_internal_log isDir
           (NixInternalLog.Msg (evalPre ++ s ++ [squote]) raw lvl) =
         some (Op.EvaluatedFile (pushDefault s))) ∧
    (isDir s = false →
       Op.from_internal_log isDir
           (NixInternalLog.Msg (evalPre ++ s ++ [squote]) raw lvl) =
         some (Op.EvaluatedFile s)) ∧
    s <+: pushDefault s ∧ defaultEntry <:+ pushDefault s := by
  have hpe : evalPre <+: evalPre ++ s ++ [squote] :=
    ⟨s ++ [squote], (List.append_assoc _ s [squote]).symm⟩
  have heval := @from_log_eval isDir (evalPre ++ s ++ [squote]) s raw lvl
    (matchTwo_none_of_pre hpe preIncomp.1 preIncomp.2.1)
    (matchOne_eq_some.mpr ⟨rfl, hs⟩)
  refine ⟨fun hd => by rw [heval, hd]; simp, fun hd => by rw [heval, hd]; simp, ?_, ?_⟩
  · unfold pushDefault
    split
    case isTrue he => rw [he]; exact List.nil_prefix
    case isFalse =>
      split
      · exact List.prefix_append s defaultEntry
      · exact List.prefix_append s ('/' :: defaultEntry)
  · unfold pushDefault
    split
    · exact List.suffix_rfl
    · split
      · exact List.suffix_append s defaultEntry
      · exact (List.suffix_append ['/'] defaultEntry).trans
          (List.suffix_append s ('/' :: defaultEntry))

/-- C4 witness: the normalization theorem applied to the concrete path
`d`, once under an oracle that reports a directory and once under one
that does not. -/
theorem c4_eval_dir_normalization_witness :
    (Op.from_internal_log (fun _ => true)
        (NixInternalLog.Msg (evalPre ++ ['d'] ++ [squote]) none 1) =
      some (Op.EvaluatedFile (pushDefault ['d']))) ∧
    (Op.from_internal_log (fun _ => false)
        (NixInternalLog.Msg (evalPre ++ ['d'] ++ [squote]) none 1) =
      some (Op.EvaluatedFile ['d'])) :=
  ⟨(c4_eval_dir_normalization (fun _ => true) ['d'] none 1 (by decide)).1 rfl,
   (c4_eval_dir_normalization (fun _ => false) ['d'] none 1 (by decide)).2.1 rfl⟩

/-- C5: the classifier is first-match search over the fixed, ordered
pattern table (CopiedSource, EvaluatedFile, ReadFile, TrackedPath); the
four matchers are pairwise mutually exclusive, so first-match search over
any permutation of the table gives the same result. -/
theorem c5_ordered_first_match : ∀ (isDir : List Char → Bool),
    (∀ msg raw lvl,
       Op.from_internal_log isDir (NixInternalLog.Msg msg raw lvl) =
         (matcherList isDir).findSome? (fun m => m msg)) ∧
    (matcherList isDir).Pairwise MutExcl ∧
    (∀ (l : List (List Char → Option Op)) (msg : List Char),
       (matcherList isDir).Perm l →
         l.findSome? (fun m => m msg) =
           (matcherList isDir).findSome? (fun m => m msg)) := by
  intro isDir
  refine ⟨from_log_eq_findSome isDir, matcherList_pairwise isDir, ?_⟩
  intro l msg hp
  exact (findSome?_eq_of_perm hp (matcherList_pairwise isDir) msg).symm

/-- C6: the classifier is deterministic up to the one directory check:
two directory oracles that give the same answer on the captured
EvaluatedFile path (the only path ever consulted) classify every record
identically. -/
theorem c6_pure_up_to_stat (isDir1 isDir2 : List Char → Bool) (log : NixInternalLog)
    (h : ∀ msg raw lvl s, log = NixInternalLog.Msg msg raw lvl →
       matchOne evalPre msg = some s → isDir1 s = isDir2 s) :
    Op.from_internal_log isDir1 log = Op.from_internal_log isDir2 log := by
  cases log with
  | Msg msg raw lvl =>
    cases h0 : matchTwo copiedPre msg with
    | some p =>
      obtain ⟨s, t⟩ := p
      rw [from_log_copied h0, from_log_copied h0]
    | none =>
      cases h1 : matchOne evalPre msg with
      | some s =>
        rw [from_log_eval h0 h1, from_log_eval h0 h1, h msg raw lvl s rfl h1]
      | none =>
        cases h2 : matchOne readPre msg with
        | some s => rw [from_log_read h0 h1 h2, from_log_read h0 h1 h2]
        | none =>
          cases h3 : matchOne trackedPre msg with
          | some s =>
            rw [from_log_tracked h0 h1 h2 h3, from_log_tracked h0 h1 h2 h3]
          | none =>
            rw [from_log_noMatch h0 h1 h2 h3, from_log_noMatch h0 h1 h2 h3]
  | Start id => rfl
  | Stop id => rfl
  | Result id => rfl

/-- C6 witness: two oracles that differ on most paths but agree on the
captured path `a` classify the message `evaluating file 'a'`
identically. -/
theorem c6_pure_up_to_stat_witness :
    Op.from_internal_log (fun _ => true)
        (NixInternalLog.Msg (evalPre ++ ['a'] ++ [squote]) none 1) =
      Op.from_internal_log (fun p => decide (p = ['a']))
        (NixInternalLog.Msg (evalPre ++ ['a'] ++ [squote]) none 1) := by
  apply c6_pure_up_to_stat
  intro msg raw lvl s heq hm
  injection heq with hmsg hraw hlvl
  subst hmsg
  have hv : matchOne evalPre (evalPre ++ ['a'] ++ [squote]) = some ['a'] := by decide
  rw [hv] at hm
  obtain rfl : ['a'] = s := Option.some.inj hm
  decide

/-- C7: the dependency collector is an idempotent, order-independent set
construction over classifier output — feeding the same record twice
yields a set holding its operation once (size 1 when alone), any
permutation of the stream yields the same set, and membership is
deduplicated by full operation equality. -/
theorem c7_collector_set (isDir : List Char → Bool) :
    (∀ (logs : List NixInternalLog) (r : NixInternalLog) (op : Op),
       Op.from_internal_log isDir r = some op →
         collect isDir (logs ++ [r, r]) = collect isDir (logs ++ [r]) ∧
         collect isDir [r, r] = {op} ∧ (collect isDir [r, r]).card = 1) ∧
    (∀ (l1 l2 : List NixInternalLog), l1.Perm l2 →
       collect isDir l1 = collect isDir l2) ∧
    (∀ (logs : List NixInternalLog) (op : Op),
       op ∈ collect isDir logs ↔
         ∃ log ∈ logs, Op.from_internal_log isDir log = some op) := by
  refine ⟨?_, ?_, fun logs op => mem_collect isDir logs op⟩
  · intro logs r op h
    have hset : collect isDir [r, r] = {op} := by
      unfold collect
      simp [h, Finset.insert_idem]
    refine ⟨?_, hset, by rw [hset]; exact Finset.card_singleton op⟩
    apply Finset.ext
    intro x
    rw [mem_collect, mem_collect]
    constructor
    · rintro ⟨log, hl, hlog⟩
      refine ⟨log, ?_, hlog⟩
      simp only [List.mem_append, List.mem_cons, List.not_mem_nil, or_false] at hl ⊢
      tauto
    · rintro ⟨log, hl, hlog⟩
      refine ⟨log, ?_, hlog⟩
      simp only [List.mem_append, List.mem_cons, List.not_mem_nil, or_false] at hl ⊢
      tauto
  · intro l1 l2 hp
    apply Finset.ext
    intro x
    rw [mem_collect, mem_collect]
    constructor
    · rintro ⟨log, hl, hlog⟩
      exact ⟨log, hp.mem_iff.mp hl, hlog⟩
    · rintro ⟨log, hl, hlog⟩
      exact ⟨log, hp.mem_iff.mpr hl, hlog⟩

/-- C8 (counterexample): the patterns are anchored, yet a message that
contains a recognized shape as a proper substring need not classify to
`none` — wrapping `evaluating file 'a'` once more in the EvaluatedFile
template yields a longer message that itself fully matches, so it
classifies to `some`. -/
theorem c8_anchoring_cex :
    (Op.from_internal_log (fun _ => false)
        (NixInternalLog.Msg (evalPre ++ ['a'] ++ [squote]) none 1) =
      some (Op.EvaluatedFile ['a'])) ∧
    ((evalPre ++ ['a'] ++ [squote] : List Char) <:+:
      (evalPre ++ (evalPre ++ ['a'] ++ [squote]) ++ [squote])) ∧
    ((evalPre ++ ['a'] ++ [squote] : List Char) ≠
      evalPre ++ (evalPre ++ ['a'] ++ [squote]) ++ [squote]) ∧
    (Op.from_internal_log (fun _ => false)
        (NixInternalLog.Msg
          (evalPre ++ (evalPre ++ ['a'] ++ [squote]) ++ [squote]) none 1) =
      some (Op.EvaluatedFile (evalPre ++ ['a'] ++ [squote]))) :=
  ⟨by decide, by decide, by decide, by decide⟩

/-- C8 (amended): whole-message anchoring — `some` is returned only when
the entire message matches one of the four templates; a message
containing a recognized shape as a proper substring classifies to `none`
unless the whole message itself matches a template. -/
theorem c8_anchoring : ∀ (isDir : List Char → Bool) (msg : List Char)
    (raw : Option (List Char)) (lvl : Nat) (op : Op),
    Op.from_internal_log isDir (NixInternalLog.Msg msg raw lvl) = some op →
    (∃ s t, msg = copiedPre ++ s ++ sepLit ++ t ++ [squote]) ∨
    (∃ s, msg = evalPre ++ s ++ [squote]) ∨
    (∃ s, msg = readPre ++ s ++ [squote]) ∨
    (∃ s, msg = trackedPre ++ s ++ [squote]) := by
  intro isDir msg raw lvl op h
  rcases from_log_msg_cases h with ⟨s, t, hm, -⟩ | ⟨s, hm, -⟩ | ⟨s, hm, -⟩ | ⟨s, hm, -⟩
  · exact Or.inl ⟨s, t, (matchTwo_eq_some.mp hm).1⟩
  · exact Or.inr (Or.inl ⟨s, (matchOne_eq_some.mp hm).1⟩)
  · exact Or.inr (Or.inr (Or.inl ⟨s, (matchOne_eq_some.mp hm).1⟩))
  · exact Or.inr (Or.inr (Or.inr ⟨s, (matchOne_eq_some.mp hm).1⟩))

/-- C8 witness: the anchoring theorem applied to the concrete message
`copied source 'a' -> 'b'`. -/
theorem c8_anchoring_witness :
    (∃ s t, (copiedPre ++ ['a'] ++ sepLit ++ ['b'] ++ [squote] : List Char) =
        copiedPre ++ s ++ sepLit ++ t ++ [squote]) ∨
    (∃ s, (copiedPre ++ ['a'] ++ sepLit ++ ['b'] ++ [squote] : List Char) =
        evalPre ++ s ++ [squote]) ∨
    (∃ s, (copiedPre ++ ['a'] ++ sepLit ++ ['b'] ++ [squote] : List Char) =
        readPre ++ s ++ [squote]) ∨
    (∃ s, (copiedPre ++ ['a'] ++ sepLit ++ ['b'] ++ [squote] : List Char) =
        trackedPre ++ s ++ [squote]) :=
  c8_anchoring (fun _ => false) _ none 1 (Op.CopiedSource ['a'] ['b']) (by decide)
